import Mathlib

/-!
Verification of the DailyDrip RAG core (dailydrip_rag/src) against its
natural-language specification.

The development shallowly embeds the Python modules `index.py`, `query.py`,
`ingest.py` and `service.py` of `dailydrip_rag/src`.  JSON-like Python values
are modelled by the inductive type `Value`; Python `dict`s are modelled as
association lists in insertion order; Python `float` arithmetic is modelled
over `ℚ` (exact rational arithmetic in place of IEEE 754 doubles, which the
scoring formulas use only through `+ * /` on small decimal constants).
-/

set_option maxHeartbeats 1000000

/-- A JSON-like Python value: `str`, `int`, `float`, `bool`, `None`,
`list`, or `dict` (string-keyed, in insertion order). -/
inductive Value where
  | str (s : String)
  | int (n : Int)
  | num (q : ℚ)
  | bool (b : Bool)
  | null
  | list (vs : List Value)
  | obj (fields : List (String × Value))

/-- A Python `dict` with string keys, in insertion order. -/
abbrev Dict := List (String × Value)

/-- `d.get(k)`: the value stored under the first (unique) occurrence of `k`. -/
def dictGet (d : Dict) (k : String) : Option Value :=
  match d with
  | [] => none
  | (k', v) :: rest => if k' = k then some v else dictGet rest k

/-- `k in d`: key membership test of a Python dict. -/
def dictHasKey (d : Dict) (k : String) : Bool :=
  match d with
  | [] => false
  | (k', _) :: rest => if k' = k then true else dictHasKey rest k

/-- `d[k] = v`: overwrite the value at an existing key in place, else append. -/
def dictPut (d : Dict) (k : String) (v : Value) : Dict :=
  match d with
  | [] => [(k, v)]
  | (k', v') :: rest => if k' = k then (k, v) :: rest else (k', v') :: dictPut rest k v

/-- Is the value a Python scalar (`str`/`int`/`float`/`bool`/`None`)?
These are exactly the values ChromaDB metadata may hold. -/
def isScalar : Value → Prop
  | .str _ => True
  | .int _ => True
  | .num _ => True
  | .bool _ => True
  | .null => True
  | .list _ => False
  | .obj _ => False

/-- Decimal digit character for `d % 10`-style rendering (callers pass `d < 10`). -/
def digitChar (d : Nat) : Char :=
  match d with
  | 0 => '0' | 1 => '1' | 2 => '2' | 3 => '3' | 4 => '4'
  | 5 => '5' | 6 => '6' | 7 => '7' | 8 => '8' | _ => '9'

/-- The decimal digits of `n`, most significant first; Python's `str(n)` for `n ≥ 0`. -/
def natDigits (n : Nat) : List Char :=
  if _h : n < 10 then [digitChar n]
  else natDigits (n / 10) ++ [digitChar (n % 10)]
  termination_by n
  decreasing_by exact Nat.div_lt_self (by omega) (by omega)

/-- Python's `str` on a nonnegative integer. -/
def natStr (n : Nat) : String := String.mk (natDigits n)

/-- Python's `str` on an `int` (decimal, with a leading `-` when negative). -/
def intStr (i : Int) : String :=
  if i < 0 then "-" ++ natStr i.natAbs else natStr i.natAbs

/-- Numeric value of a list of decimal digit characters (big-endian). -/
def digitsVal (ds : List Char) : Nat :=
  ds.foldl (fun a c => a * 10 + (c.toNat - 48)) 0

/-- Python `int(s)` on a character list: optional sign followed by one or more
decimal digits.  (Python additionally strips whitespace and accepts
underscores and non-ASCII digits; those exotic forms are not modelled and
never arise from keys produced by the flat codec.) -/
def pyIntChars (cs : List Char) : Option Int :=
  match cs with
  | [] => none
  | c :: ds =>
    if c = '-' then
      if ds ≠ [] ∧ ds.all Char.isDigit then some (-(digitsVal ds : Int)) else none
    else if c = '+' then
      if ds ≠ [] ∧ ds.all Char.isDigit then some (digitsVal ds : Int) else none
    else
      if (c :: ds).all Char.isDigit then some (digitsVal (c :: ds) : Int) else none

/-- Unsigned part of Python `float(s)`: `digits`, `digits.`, `.digits` or
`digits.digits`.  (Exponent, `inf` and `nan` forms are outside the rational
model and are not produced by any record field the spec discusses.) -/
def pyFloatUnsigned (cs : List Char) : Option ℚ :=
  let ip := cs.takeWhile (· ≠ '.')
  match cs.dropWhile (· ≠ '.') with
  | [] =>
    if ip ≠ [] ∧ ip.all Char.isDigit then some ((digitsVal ip : ℚ)) else none
  | _ :: fp =>
    if (ip ≠ [] ∨ fp ≠ []) ∧ ip.all Char.isDigit ∧ fp.all Char.isDigit ∧ fp.all (· ≠ '.') then
      some ((digitsVal ip : ℚ) + (digitsVal fp : ℚ) / (10 : ℚ) ^ fp.length)
    else none

/-- Python `float(s)` on a string (sign handling). -/
def pyFloatStr (s : String) : Option ℚ :=
  match s.data with
  | '-' :: rest => (pyFloatUnsigned rest).map Neg.neg
  | '+' :: rest => pyFloatUnsigned rest
  | cs => pyFloatUnsigned cs

/-- Python `float(v)`: `none` models the `ValueError`/`TypeError` the caller
catches.  `float` succeeds on numbers, booleans and numeric strings, and
raises on `None`, lists and dicts. -/
def pyFloat : Value → Option ℚ
  | .int n => some (n : ℚ)
  | .num q => some q
  | .bool b => some (if b then 1 else 0)
  | .str s => pyFloatStr s
  | _ => none

/-! ## Quality Scorer (`compute_evaluation_score` in `query.py`,
`_compute_evaluation_score` in `service.py`; both bodies are identical up to
local variable names, so one embedding covers both). -/

/-- The parsed `liking` contribution source: `evaluation.get("liking")`,
skipped when absent or `None`, then `float(liking)` with errors skipped. -/
def likingVal (evaluation : Dict) : Option ℚ :=
  match dictGet evaluation "liking" with
  | none => none
  | some Value.null => none
  | some v => pyFloat v

/-- The five recognized JAG sub-metric keys, in the order the code probes them. -/
def jagKeyList : List String :=
  ["flavour_intensity", "acidity", "mouthfeel", "sweetness", "purchase_intent"]

/-- The successfully parsed raw JAG values (`float(val)` successes), in key
order.  `evaluation.get("jag", {})` defaults to an empty dict; a non-dict
`jag` fails the `isinstance` test and contributes nothing. -/
def jagRawVals (evaluation : Dict) : List ℚ :=
  match dictGet evaluation "jag" with
  | some (Value.obj jag) =>
    jagKeyList.filterMap fun k =>
      match dictGet jag k with
      | none => none
      | some Value.null => none
      | some v => pyFloat v
  | _ => []

/-- The normalized JAG values `(float(val) - 1.0) / 4.0`, in key order. -/
def jagNormVals (evaluation : Dict) : List ℚ :=
  (jagRawVals evaluation).map fun q => (q - 1) / 4

/-- `compute_evaluation_score` / `_compute_evaluation_score`: weighted blend
of the liking contribution (weight 0.6) and the mean normalized JAG
contribution (weight 0.4), renormalized by the sum of the weights actually
used; `0.0` for a falsy (empty/`None`) evaluation or when nothing parses. -/
def compute_evaluation_score (evaluation : Dict) : ℚ :=
  if evaluation.isEmpty then 0
  else
    let likingPart : ℚ × ℚ :=
      match likingVal evaluation with
      | some q => (q / 10 * (6/10), 6/10)
      | none => (0, 0)
    let js := jagNormVals evaluation
    let jagPart : ℚ × ℚ :=
      match js with
      | [] => (0, 0)
      | _ => (js.sum / (js.length : ℚ) * (4/10), 4/10)
    let score := likingPart.1 + jagPart.1
    let weightsSum := likingPart.2 + jagPart.2
    if 0 < weightsSum then score / weightsSum else 0

theorem dictGet_nil (k : String) : dictGet [] k = none := rfl

theorem likingVal_ne_nil {evaluation : Dict} {q : ℚ}
    (h : likingVal evaluation = some q) : evaluation ≠ [] := by
  intro he
  rw [he] at h
  simp [likingVal, dictGet] at h

theorem jagRawVals_ne_nil {evaluation : Dict}
    (h : jagRawVals evaluation ≠ []) : evaluation ≠ [] := by
  intro he
  rw [he] at h
  simp [jagRawVals, dictGet] at h

/-- The mean of a nonempty list of rationals lying in `[0, 1]` lies in `[0, 1]`. -/
theorem mean_mem_unit {l : List ℚ} (h0 : ∀ x ∈ l, 0 ≤ x ∧ x ≤ 1) (hne : l ≠ []) :
    0 ≤ l.sum / (l.length : ℚ) ∧ l.sum / (l.length : ℚ) ≤ 1 := by
  have hlen : 0 < (l.length : ℚ) := by
    have : 0 < l.length := List.length_pos.mpr hne
    exact_mod_cast this
  constructor
  · exact div_nonneg (List.sum_nonneg fun x hx => (h0 x hx).1) hlen.le
  · rw [div_le_one hlen]
    calc l.sum ≤ l.length • (1 : ℚ) := List.sum_le_card_nsmul l 1 fun x hx => (h0 x hx).2
      _ = (l.length : ℚ) := by simp

/-- Normalized JAG values lie in `[0, 1]` when the raw values lie in `[1, 5]`. -/
theorem jagNormVals_mem_unit {evaluation : Dict}
    (hj : ∀ q ∈ jagRawVals evaluation, 1 ≤ q ∧ q ≤ 5) :
    ∀ x ∈ jagNormVals evaluation, 0 ≤ x ∧ x ≤ 1 := by
  intro x hx
  rw [jagNormVals, List.mem_map] at hx
  obtain ⟨q, hq, rfl⟩ := hx
  obtain ⟨h1, h5⟩ := hj q hq
  constructor <;> [linarith [h1]; linarith [h5]]

/-- Core bound: the renormalized weighted blend stays in `[0, 1]` when each
contribution that is present lies in `[0, 1]`. -/
theorem compute_evaluation_score_bounds (evaluation : Dict)
    (hl : ∀ q, likingVal evaluation = some q → 0 ≤ q ∧ q ≤ 10)
    (hj : ∀ q ∈ jagRawVals evaluation, 1 ≤ q ∧ q ≤ 5) :
    0 ≤ compute_evaluation_score evaluation ∧ compute_evaluation_score evaluation ≤ 1 := by
  by_cases hne : evaluation = []
  · rw [hne]
    simp [compute_evaluation_score]
  · cases hlv : likingVal evaluation with
    | some q =>
      obtain ⟨hq0, hq10⟩ := hl q hlv
      cases hjn : jagNormVals evaluation with
      | nil =>
        simp only [compute_evaluation_score, hlv, hjn, List.isEmpty_iff, hne, if_false]
        norm_num
        constructor
        · positivity
        · rw [div_le_one (by norm_num)]
          linarith
      | cons x xs =>
        have hmean := mean_mem_unit (l := x :: xs)
          (by rw [← hjn]; exact jagNormVals_mem_unit hj) (by simp)
        simp only [List.sum_cons, List.length_cons] at hmean
        push_cast at hmean
        simp only [compute_evaluation_score, hlv, hjn, List.isEmpty_iff, hne, if_false]
        norm_num
        constructor
        · have h1 := hmean.1
          have h2 := hq0
          nlinarith [hmean.1]
        · have h2 := hmean.2
          linarith
    | none =>
      cases hjn : jagNormVals evaluation with
      | nil =>
        simp [compute_evaluation_score, hlv, hjn, List.isEmpty_iff, hne]
      | cons x xs =>
        have hmean := mean_mem_unit (l := x :: xs)
          (by rw [← hjn]; exact jagNormVals_mem_unit hj) (by simp)
        simp only [List.sum_cons, List.length_cons] at hmean
        push_cast at hmean
        simp only [compute_evaluation_score, hlv, hjn, List.isEmpty_iff, hne, if_false]
        norm_num
        constructor
        · exact hmean.1
        · exact hmean.2

/-- C1 counterexample: the claim is false as stated.  On the evaluation
`{liking: 20}` (a parseable liking outside the nominal 0-10 scale) the code
returns `(20/10 · 0.6) / 0.6 = 2.0 > 1`, so the score is not bounded by 1.0
for every input. -/
theorem score_unbounded_counterexample :
    1 < compute_evaluation_score [("liking", Value.int 20)] := by
  have h1 : likingVal [("liking", Value.int 20)] = some 20 := by
    simp [likingVal, dictGet, pyFloat]
  have h2 : jagNormVals [("liking", Value.int 20)] = [] := by
    simp [jagNormVals, jagRawVals, dictGet]
  simp only [compute_evaluation_score, h1, h2, List.isEmpty_cons]
  norm_num

/-- C1 (amended): the score lies in `[0, 1]` for every evaluation input -
absent, empty, malformed or partially populated - provided every value that
actually parses lies within its nominal scale (liking in 0-10, JAG raw
values in 1-5).  Out-of-scale parseable values escape the interval, as the
counterexample shows. -/
theorem score_bounds_within_nominal_scales (evaluation : Dict)
    (hl : ∀ q, likingVal evaluation = some q → 0 ≤ q ∧ q ≤ 10)
    (hj : ∀ q ∈ jagRawVals evaluation, 1 ≤ q ∧ q ≤ 5) :
    0 ≤ compute_evaluation_score evaluation ∧ compute_evaluation_score evaluation ≤ 1 :=
  compute_evaluation_score_bounds evaluation hl hj

theorem score_bounds_within_nominal_scales_witness :
    0 ≤ compute_evaluation_score
        [("liking", Value.int 8), ("jag", Value.obj [("acidity", Value.int 5)])] ∧
      compute_evaluation_score
        [("liking", Value.int 8), ("jag", Value.obj [("acidity", Value.int 5)])] ≤ 1 :=
  score_bounds_within_nominal_scales
    [("liking", Value.int 8), ("jag", Value.obj [("acidity", Value.int 5)])]
    (fun q hq => by
      have h8 : likingVal
          [("liking", Value.int 8), ("jag", Value.obj [("acidity", Value.int 5)])] =
            some 8 := by decide
      rw [h8] at hq
      injection hq with h
      rw [← h]
      norm_num)
    (fun q hq => by
      have h5 : jagRawVals
          [("liking", Value.int 8), ("jag", Value.obj [("acidity", Value.int 5)])] =
            [5] := by decide
      rw [h5] at hq
      simp at hq
      rw [hq]
      norm_num)

/-- A parsed liking with no parsed JAG values renormalizes to `liking / 10`. -/
theorem score_eq_liking_only {evaluation : Dict} {q : ℚ}
    (hlv : likingVal evaluation = some q) (hjr : jagRawVals evaluation = []) :
    compute_evaluation_score evaluation = q / 10 := by
  have hne : evaluation ≠ [] := likingVal_ne_nil hlv
  have hjn : jagNormVals evaluation = [] := by rw [jagNormVals, hjr]; rfl
  simp only [compute_evaluation_score, hlv, hjn, List.isEmpty_iff, hne, if_false]
  norm_num

/-- Parsed JAG values with no parsed liking renormalize to their simple mean. -/
theorem score_eq_jag_mean {evaluation : Dict}
    (hlv : likingVal evaluation = none) (hjr : jagRawVals evaluation ≠ []) :
    compute_evaluation_score evaluation =
      (jagNormVals evaluation).sum / ((jagNormVals evaluation).length : ℚ) := by
  have hne : evaluation ≠ [] := jagRawVals_ne_nil hjr
  have hjn : jagNormVals evaluation ≠ [] := by
    rw [jagNormVals]
    simpa using hjr
  cases hjc : jagNormVals evaluation with
  | nil => exact absurd hjc hjn
  | cons x xs =>
    simp only [compute_evaluation_score, hlv, hjc, List.isEmpty_iff, hne, if_false]
    norm_num

/-- With neither contribution parsed the score is `0.0`. -/
theorem score_eq_zero_of_none {evaluation : Dict}
    (hlv : likingVal evaluation = none) (hjr : jagRawVals evaluation = []) :
    compute_evaluation_score evaluation = 0 := by
  by_cases hne : evaluation = []
  · rw [hne]
    simp [compute_evaluation_score]
  · have hjn : jagNormVals evaluation = [] := by rw [jagNormVals, hjr]; rfl
    simp [compute_evaluation_score, hlv, hjn, List.isEmpty_iff, hne]

/-- C2: renormalization by the weights actually used.  (1) an evaluation
whose only parsed contribution is `liking` scores exactly `liking / 10`;
(2) an evaluation whose only parsed contribution is JAG scores exactly the
simple mean of the normalized JAG values; (3) `{liking: 8}` scores `0.8`;
(4) `{jag: {acidity: 5, sweetness: 3}}` scores `0.75`. -/
theorem score_renormalizes_by_weights_used :
    (∀ evaluation q, likingVal evaluation = some q → jagRawVals evaluation = [] →
        compute_evaluation_score evaluation = q / 10) ∧
    (∀ evaluation, likingVal evaluation = none → jagRawVals evaluation ≠ [] →
        compute_evaluation_score evaluation =
          (jagNormVals evaluation).sum / ((jagNormVals evaluation).length : ℚ)) ∧
    compute_evaluation_score [("liking", Value.int 8)] = 8 / 10 ∧
    compute_evaluation_score
      [("jag", Value.obj [("acidity", Value.int 5), ("sweetness", Value.int 3)])] = 3 / 4 := by
  have hb : compute_evaluation_score [("liking", Value.int 8)] = 8 / 10 := by
    have h1 : likingVal [("liking", Value.int 8)] = some 8 := by
      simp [likingVal, dictGet, pyFloat]
    have h2 : jagNormVals [("liking", Value.int 8)] = [] := by
      simp [jagNormVals, jagRawVals, dictGet]
    simp only [compute_evaluation_score, h1, h2, List.isEmpty_cons]
    norm_num
  have hc : compute_evaluation_score
      [("jag", Value.obj [("acidity", Value.int 5), ("sweetness", Value.int 3)])] = 3 / 4 := by
    have h1 : likingVal
        [("jag", Value.obj [("acidity", Value.int 5), ("sweetness", Value.int 3)])] = none := by
      simp [likingVal, dictGet]
    have h2 : jagNormVals
        [("jag", Value.obj [("acidity", Value.int 5), ("sweetness", Value.int 3)])] =
          [1, 1/2] := by
      simp [jagNormVals, jagRawVals, dictGet, pyFloat, jagKeyList]
      norm_num
    simp only [compute_evaluation_score, h1, h2, List.isEmpty_cons]
    norm_num
  exact ⟨fun evaluation q hlv hjr => score_eq_liking_only hlv hjr,
    fun evaluation hlv hjr => score_eq_jag_mean hlv hjr, hb, hc⟩

theorem score_renormalizes_by_weights_used_witness :
    compute_evaluation_score [("liking", Value.int 8)] = 8 / 10 :=
  score_renormalizes_by_weights_used.1 [("liking", Value.int 8)] 8
    (by decide) (by decide)

/-! ## String helpers shared by `service.py` and `query.py` embeddings -/

/-- Python `s.startswith(pre)`. -/
def strStarts (pre s : String) : Bool := pre.data.isPrefixOf s.data

/-- Remove every (non-overlapping, left-to-right) occurrence of `pat` from a
character list: the character-level engine of Python `s.replace(pat, "")`. -/
def removeOcc (pat : List Char) (cs : List Char) : List Char :=
  match cs with
  | [] => []
  | c :: rest =>
    if pat.isPrefixOf (c :: rest) && !pat.isEmpty then
      removeOcc pat (rest.drop (pat.length - 1))
    else
      c :: removeOcc pat rest
  termination_by cs.length
  decreasing_by
    all_goals simp only [List.length_drop, List.length_cons]
    all_goals omega

/-- Python `s.replace(pat, "")`. -/
def pyRemoveAll (pat s : String) : String := String.mk (removeOcc pat.data s.data)

/-! ## Candidate Reranker (`main` in `query.py` lines 154-193 and `_run_query`
in `service.py` lines 268-309; the candidate-construction / sort / truncate /
rank logic is the same in both, with the service's metadata decoding). -/

/-- One raw nearest-neighbor hit as unpacked from the vector store response:
`(id, distance, document, flat metadata)`. -/
structure RawHit where
  hid : String
  distance : ℚ
  doc : String
  meta : Dict

/-- One candidate dict as built in the loop over raw hits. -/
structure Candidate where
  cid : String
  distance : ℚ
  bean_text : String
  brewing : Dict
  evaluation : Dict
  combined_score : Option ℚ

/-- One final result entry (`RagReference` / result dict) with its 1-based rank. -/
structure RankedRef where
  rank : Nat
  rid : String
  distance : ℚ
  bean_text : String
  brewing : Dict
  evaluation : Dict
  combined_score : Option ℚ

/-- `_extract_brewing` in `service.py`: keep the keys starting with
`"brewing."`, stripped of that text by `str.replace`. -/
def svcExtractBrewing (meta : Dict) : Dict :=
  (meta.filter fun kv => strStarts "brewing." kv.1).foldl
    (fun d kv => dictPut d (pyRemoveAll "brewing." kv.1) kv.2) []

/-- `_extract_evaluation` in `service.py`: keep the keys starting with
`"evaluation."`, stripped of that text by `str.replace`. -/
def svcExtractEvaluation (meta : Dict) : Dict :=
  (meta.filter fun kv => strStarts "evaluation." kv.1).foldl
    (fun d kv => dictPut d (pyRemoveAll "evaluation." kv.1) kv.2) []

/-- The candidate built for one raw hit: decoded metadata plus, when
reranking, `combined = similarity_weight · 1/(1+distance) +
(1 - similarity_weight) · evaluation_score`. -/
def mkCandidate (useRr : Bool) (w : ℚ) (h : RawHit) : Candidate :=
  let brewing := svcExtractBrewing h.meta
  let evaluation := svcExtractEvaluation h.meta
  let combined : Option ℚ :=
    if useRr then
      some (w * (1 / (1 + h.distance)) + (1 - w) * compute_evaluation_score evaluation)
    else none
  ⟨h.hid, h.distance, h.doc, brewing, evaluation, combined⟩

/-- The sort key: `x["combined_score"] or 0` (the service guards `None` with
`or 0`; in the reranking branch the score is always present). -/
def candKey (c : Candidate) : ℚ := c.combined_score.getD 0

/-- `candidates.sort(key=..., reverse=True)`: a stable descending sort.
Python's Timsort is stable; any stable sort yields the same output, so the
model uses insertion sort placing each earlier element before later elements
of equal key. -/
def rerankSort (cands : List Candidate) : List Candidate :=
  List.insertionSort (fun a b => candKey b ≤ candKey a) cands

/-- Python list slicing `xs[:k]` for an arbitrary (possibly negative) `int` k. -/
def pySliceTo {α : Type} (xs : List α) (k : Int) : List α :=
  if 0 ≤ k then xs.take k.toNat else xs.take (xs.length - (-k).toNat)

def mkRankedRef (r : Nat) (c : Candidate) : RankedRef :=
  ⟨r, c.cid, c.distance, c.bean_text, c.brewing, c.evaluation, c.combined_score⟩

/-- `for rank, candidate in enumerate(candidates[:k], 1)`. -/
def assignRanks : Nat → List Candidate → List RankedRef
  | _, [] => []
  | r, c :: cs => mkRankedRef r c :: assignRanks (r + 1) cs

/-- Candidate list after the optional rerank sort. -/
def rerankCandidates (hits : List RawHit) (useRr : Bool) (w : ℚ) : List Candidate :=
  let cands := hits.map (mkCandidate useRr w)
  if useRr then rerankSort cands else cands

/-- The full post-fetch pipeline: build candidates, optionally sort,
truncate to `k`, assign ranks `1..`. -/
def runRerank (hits : List RawHit) (k : Int) (useRr : Bool) (w : ℚ) : List RankedRef :=
  assignRanks 1 (pySliceTo (rerankCandidates hits useRr w) k)

/-- `query.py main` after the query text is built: compute
`n_fetch = k * retrieval_multiplier if use_reranking else k`, consult the
vector store with exactly that `n_results` (unconditionally - there is no
`k <= 0` short-circuit in the code), then rerank.  The first component
records the `n_results` of the store query that was issued. -/
def runQueryCLI (store : Int → List RawHit) (k : Int) (mult : Int) (useRr : Bool)
    (w : ℚ) : Int × List RankedRef :=
  let nFetch := if useRr then k * mult else k
  let hits := store nFetch
  (nFetch, runRerank hits k useRr w)

/-- Inserting into a list does not change the sublist of entries having any
fixed key value: every element the insertion skips has a strictly larger key. -/
theorem orderedInsert_filter_stable (x : Candidate) (l : List Candidate) (c : ℚ) :
    (List.orderedInsert (fun a b => candKey b ≤ candKey a) x l).filter
        (fun y => decide (candKey y = c)) =
      (x :: l).filter (fun y => decide (candKey y = c)) := by
  induction l with
  | nil => rfl
  | cons b bs ih =>
    rw [List.orderedInsert]
    by_cases hxb : candKey b ≤ candKey x
    · rw [if_pos hxb]
    · rw [if_neg hxb]
      push_neg at hxb
      by_cases hx : candKey x = c
      · have hb : candKey b ≠ c := fun h => (ne_of_gt hxb) (h.trans hx.symm)
        simp [List.filter_cons, hx, hb, ih]
      · simp [List.filter_cons, hx, ih]

/-- Stability of the rerank sort: for every key value, the entries carrying
that exact combined score appear in the output in their original relative
order (their filtered subsequence is unchanged). -/
theorem rerankSort_filter_stable (l : List Candidate) (c : ℚ) :
    (rerankSort l).filter (fun y => decide (candKey y = c)) =
      l.filter (fun y => decide (candKey y = c)) := by
  induction l with
  | nil => rfl
  | cons x xs ih =>
    rw [rerankSort, List.insertionSort]
    rw [show List.insertionSort (fun a b => candKey b ≤ candKey a) xs = rerankSort xs from rfl]
    rw [orderedInsert_filter_stable]
    simp [List.filter_cons, ih]

/-- The rerank sort output is non-increasing in the sort key. -/
theorem rerankSort_sorted (l : List Candidate) :
    List.Pairwise (fun a b => candKey b ≤ candKey a) (rerankSort l) := by
  haveI : IsTotal Candidate (fun a b => candKey b ≤ candKey a) :=
    ⟨fun a b => le_total (candKey b) (candKey a)⟩
  haveI : IsTrans Candidate (fun a b => candKey b ≤ candKey a) :=
    ⟨fun a b c hab hbc => le_trans hbc hab⟩
  exact List.sorted_insertionSort _ l

theorem rerankSort_length (l : List Candidate) : (rerankSort l).length = l.length :=
  (List.perm_insertionSort _ l).length_eq

theorem assignRanks_length (r : Nat) (l : List Candidate) :
    (assignRanks r l).length = l.length := by
  induction l generalizing r with
  | nil => rfl
  | cons c cs ih => simp [assignRanks, ih]

theorem assignRanks_map_rank (r : Nat) (l : List Candidate) :
    (assignRanks r l).map RankedRef.rank = List.range' r l.length := by
  induction l generalizing r with
  | nil => rfl
  | cons c cs ih => simp [assignRanks, mkRankedRef, List.range'_succ, ih]

theorem assignRanks_mem {x : RankedRef} {r : Nat} {l : List Candidate}
    (h : x ∈ assignRanks r l) : ∃ c ∈ l, x.combined_score = c.combined_score := by
  induction l generalizing r with
  | nil => simp [assignRanks] at h
  | cons c cs ih =>
    rw [assignRanks] at h
    rcases List.mem_cons.mp h with h1 | h2
    · exact ⟨c, List.mem_cons_self c cs, by rw [h1]; rfl⟩
    · obtain ⟨c', hc', he⟩ := ih h2
      exact ⟨c', List.mem_cons_of_mem c hc', he⟩

theorem assignRanks_pairwise {r : Nat} {l : List Candidate}
    (h : List.Pairwise (fun a b => candKey b ≤ candKey a) l) :
    List.Pairwise (fun a b => b.combined_score.getD 0 ≤ a.combined_score.getD 0)
      (assignRanks r l) := by
  induction l generalizing r with
  | nil => exact List.Pairwise.nil
  | cons c cs ih =>
    rw [List.pairwise_cons] at h
    rw [assignRanks, List.pairwise_cons]
    refine ⟨fun y hy => ?_, ih h.2⟩
    obtain ⟨c', hc', he⟩ := assignRanks_mem hy
    have : candKey c' ≤ candKey c := h.1 c' hc'
    simpa [mkRankedRef, candKey, he] using this

theorem assignRanks_map_proj (r : Nat) (l : List Candidate) :
    (assignRanks r l).map (fun x => (x.rid, x.distance, x.bean_text)) =
      l.map (fun c => (c.cid, c.distance, c.bean_text)) := by
  induction l generalizing r with
  | nil => rfl
  | cons c cs ih => simp [assignRanks, mkRankedRef, ih]

theorem pySliceTo_length {α : Type} (xs : List α) (k : Int) :
    (pySliceTo xs k).length =
      if 0 ≤ k then min k.toNat xs.length else xs.length - (-k).toNat := by
  rw [pySliceTo]
  split
  · simp [List.length_take]
  · simp only [List.length_take]
    omega

theorem pySliceTo_map {α β : Type} (f : α → β) (xs : List α) (k : Int) :
    pySliceTo (xs.map f) k = (pySliceTo xs k).map f := by
  rw [pySliceTo, pySliceTo, List.length_map]
  split <;> simp [List.map_take]

theorem pySliceTo_sublist {α : Type} (xs : List α) (k : Int) :
    (pySliceTo xs k).Sublist xs := by
  rw [pySliceTo]
  split <;> exact List.take_sublist _ _

theorem rerankCandidates_length (hits : List RawHit) (useRr : Bool) (w : ℚ) :
    (rerankCandidates hits useRr w).length = hits.length := by
  rw [rerankCandidates]
  cases useRr <;> simp [rerankSort_length]

theorem runRerank_length (hits : List RawHit) (k : Int) (useRr : Bool) (w : ℚ) :
    (runRerank hits k useRr w).length =
      if 0 ≤ k then min k.toNat hits.length else hits.length - (-k).toNat := by
  rw [runRerank, assignRanks_length, pySliceTo_length, rerankCandidates_length]

theorem runRerank_true_def (hits : List RawHit) (k : Int) (w : ℚ) :
    runRerank hits k true w =
      assignRanks 1 (pySliceTo (rerankSort (hits.map (mkCandidate true w))) k) := rfl

theorem runRerank_false_def (hits : List RawHit) (k : Int) (w : ℚ) :
    runRerank hits k false w =
      assignRanks 1 (pySliceTo (hits.map (mkCandidate false w)) k) := rfl

/-- C3: with `useReranking = true` the output is sorted non-increasing in
`combined_score` (with `combined = similarity_weight · 1/(1+distance) +
(1-similarity_weight) · quality`), equal combined scores keep their original
relative order (stable sort: filtering the sorted candidate list by any key
value returns exactly the same subsequence as filtering the input), and
ranks are assigned `1..k` in sorted order; with `useReranking = false` the
input order is preserved exactly and `combined_score` is absent. -/
theorem rerank_sorted_stable_ranked (hits : List RawHit) (w : ℚ) (k : Int) :
    List.Pairwise (fun a b => b.combined_score.getD 0 ≤ a.combined_score.getD 0)
        (runRerank hits k true w) ∧
    (∀ c : ℚ, (rerankSort (hits.map (mkCandidate true w))).filter
          (fun y => decide (candKey y = c)) =
        (hits.map (mkCandidate true w)).filter (fun y => decide (candKey y = c))) ∧
    (runRerank hits k true w).map RankedRef.rank =
        List.range' 1 (runRerank hits k true w).length ∧
    (∀ h : RawHit, (mkCandidate true w h).combined_score =
        some (w * (1 / (1 + h.distance)) +
          (1 - w) * compute_evaluation_score (svcExtractEvaluation h.meta))) ∧
    (runRerank hits k false w).map (fun x => (x.rid, x.distance, x.bean_text)) =
        (pySliceTo hits k).map (fun h => (h.hid, h.distance, h.doc)) ∧
    (∀ x ∈ runRerank hits k false w, x.combined_score = none) := by
  refine ⟨?_, ?_, ?_, ?_, ?_, ?_⟩
  · rw [runRerank_true_def]
    exact assignRanks_pairwise
      ((rerankSort_sorted (hits.map (mkCandidate true w))).sublist
        (pySliceTo_sublist _ k))
  · exact fun c => rerankSort_filter_stable (hits.map (mkCandidate true w)) c
  · rw [runRerank, assignRanks_map_rank, assignRanks_length]
  · intro h
    rfl
  · rw [runRerank_false_def, assignRanks_map_proj, pySliceTo_map]
    rw [List.map_map]
    rfl
  · intro x hx
    rw [runRerank_false_def] at hx
    obtain ⟨c, hc, he⟩ := assignRanks_mem hx
    have hc' : c ∈ hits.map (mkCandidate false w) :=
      (pySliceTo_sublist _ k).mem hc
    obtain ⟨h, _, rfl⟩ := List.mem_map.mp hc'
    rw [he]
    rfl

/-- Concrete raw hits used to instantiate the reranker theorems. -/
def hitA : RawHit := ⟨"a", 2/10, "docA", [("evaluation.liking", Value.int 9)]⟩

def hitB : RawHit := ⟨"b", 5/100, "docB", [("evaluation.liking", Value.int 5)]⟩

theorem rerank_sorted_stable_ranked_witness :
    List.Pairwise (fun a b => b.combined_score.getD 0 ≤ a.combined_score.getD 0)
        (runRerank [hitA, hitB] 2 true (1/2)) ∧
    (∀ x ∈ runRerank [hitA, hitB] 2 false (1/2), x.combined_score = none) :=
  ⟨(rerank_sorted_stable_ranked [hitA, hitB] (1/2) 2).1,
   (rerank_sorted_stable_ranked [hitA, hitB] (1/2) 2).2.2.2.2.2⟩

/-- C4 counterexample: the claim's `k <= 0` clause is false.  First, the CLI
pipeline (`query.py main`) consults the vector store unconditionally - at
`k = 0` it still issues a query (with `n_results = k * multiplier = 0`),
there is no caller-side short-circuit.  Second, a negative `k` does not
yield an empty list: Python's `candidates[:k]` for `k = -1` drops only the
last element, so two hits produce one result, not zero.  (In the HTTP
service, `k <= 0` is instead rejected up front by the `ge=1` field
validation, again not returning an empty list.) -/
theorem rerank_no_short_circuit_counterexample :
    (runQueryCLI (fun _ => []) 0 3 true (1/2)).1 = 0 ∧
    (runRerank [hitA, hitB] (-1) true (1/2)).length = 1 := by
  constructor
  · rfl
  · rw [runRerank_length]
    norm_num

/-- C4 (amended): for every `k ≥ 0` the reranker output has length
`min k (number of hits)` (in particular all hits are returned, ranked,
when fewer than `k` exist, and `k = 0` yields `[]`); for `k < 0` the
Python slice drops the last `|k|` entries instead of returning `[]`, and
no code path short-circuits the vector-store call. -/
theorem rerank_k_truncation (hits : List RawHit) (k : Int) (useRr : Bool) (w : ℚ) :
    (0 ≤ k → (runRerank hits k useRr w).length = min k.toNat hits.length) ∧
    (k < 0 → (runRerank hits k useRr w).length = hits.length - (-k).toNat) := by
  constructor
  · intro hk
    rw [runRerank_length, if_pos hk]
  · intro hk
    rw [runRerank_length, if_neg (by omega)]

theorem rerank_k_truncation_witness :
    (runRerank [hitA] 2 true (1/2)).length = min (Int.toNat 2) [hitA].length :=
  (rerank_k_truncation [hitA] 2 true (1/2)).1 (by norm_num)

/-! ## Flat Codec: `sanitize_meta` (`index.py` lines 6-26) and
`reconstruct_pours` (`query.py` lines 34-50). -/

/-- Python `str(int)`-style rendering of a rational standing in for a float.
Integral values render as Python does (`"3.0"`); Python's shortest
round-trip decimal for other floats is outside the rational model and no
claim depends on its exact text, so such values render in fraction form. -/
def ratStr (q : ℚ) : String :=
  if q.den = 1 then intStr q.num ++ ".0"
  else intStr q.num ++ "/" ++ natStr q.den

/-- `sep.join(parts)`. -/
def joinSep (sep : String) : List String → String
  | [] => ""
  | [s] => s
  | s :: rest => s ++ sep ++ joinSep sep rest

mutual
/-- Python `repr(v)` (as used by `str` on containers).  String quoting is
modelled with plain single quotes; Python's escape/quote-switching rules do
not matter to any claim. -/
def pyRepr : Value → String
  | .str s => "'" ++ s ++ "'"
  | .int n => intStr n
  | .num q => ratStr q
  | .bool b => cond b "True" "False"
  | .null => "None"
  | .list vs => "[" ++ pyReprElems vs ++ "]"
  | .obj fields => "\x7b" ++ pyReprFields fields ++ "\x7d"
def pyReprElems : List Value → String
  | [] => ""
  | [v] => pyRepr v
  | v :: rest => pyRepr v ++ ", " ++ pyReprElems rest
def pyReprFields : List (String × Value) → String
  | [] => ""
  | [(k, v)] => "'" ++ k ++ "': " ++ pyRepr v
  | (k, v) :: rest => "'" ++ k ++ "': " ++ pyRepr v ++ ", " ++ pyReprFields rest
end

/-- Python `str(v)`: the value itself for strings, `repr`-style otherwise. -/
def pyStr : Value → String
  | .str s => s
  | v => pyRepr v

/-- `isinstance(x, dict)`. -/
def isObjB : Value → Bool
  | .obj _ => true
  | _ => false

mutual
/-- `put(k, v)` inside `sanitize_meta`, as the ordered list of flat pairs it
writes into `out`: scalars (and `None`) are kept as-is; a nonempty list of
dicts is flattened with indices; any other list is joined to one
comma-separated string; a dict recurses with dotted keys. -/
def sanPairs (k : String) (v : Value) : List (String × Value) :=
  match v with
  | .str s => [(k, .str s)]
  | .int n => [(k, .int n)]
  | .num q => [(k, .num q)]
  | .bool b => [(k, .bool b)]
  | .null => [(k, .null)]
  | .list vs =>
    if !vs.isEmpty && vs.all isObjB then sanObjList k 0 vs
    else [(k, .str (joinSep ", " (vs.map pyStr)))]
  | .obj fields => sanFields k fields
def sanFields (k : String) (fields : List (String × Value)) : List (String × Value) :=
  match fields with
  | [] => []
  | (kk, vv) :: rest => sanPairs (k ++ "." ++ kk) vv ++ sanFields k rest
def sanObjList (k : String) (i : Nat) (vs : List Value) : List (String × Value) :=
  match vs with
  | [] => []
  | .obj fields :: rest => sanFields (k ++ "." ++ natStr i) fields ++ sanObjList k (i + 1) rest
  | _ :: rest => sanObjList k (i + 1) rest
end

/-- `sanitize_meta`: run `put` over the items in order; the shared `out`
dict is the left fold of in-place insertion over all emitted pairs. -/
def sanitize_meta (meta : Dict) : Dict :=
  ((meta.map fun kv => sanPairs kv.1 kv.2).flatten).foldl
    (fun d kv => dictPut d kv.1 kv.2) []

/-- Python `s.split(sep)` on character lists (single-character separator). -/
def splitChars (sep : Char) (cs : List Char) : List (List Char) :=
  match cs with
  | [] => [[]]
  | c :: rest =>
    if c = sep then [] :: splitChars sep rest
    else
      match splitChars sep rest with
      | [] => [[c]]
      | g :: gs => (c :: g) :: gs

/-- `k.split(".")`. -/
def pySplitDots (s : String) : List String := (splitChars '.' s.data).map String.mk

/-- The index parsed from one metadata key by `reconstruct_pours`:
`int(k.split(".")[2])` for keys starting with `"brewing.pours."`, with any
exception (missing component or unparsable int) swallowed. -/
def pourIdx (k : String) : Option Int :=
  if strStarts "brewing.pours." k then
    match (pySplitDots k).get? 2 with
    | some comp => pyIntChars comp.data
    | none => none
  else none

/-- `sorted(idxs)` for the collected index set: ascending numeric order. -/
def sortAscInt (l : List Int) : List Int := List.insertionSort (· ≤ ·) l

/-- The sorted distinct pour indices found in the metadata keys. -/
def pourIdxList (meta : Dict) : List Int :=
  sortAscInt ((meta.map Prod.fst).filterMap pourIdx).dedup

/-- One reconstructed pour dict: always the three keys `start`, `end`
(`stop` here, `end` being reserved in Lean) and `water_added`, with
`meta.get(...)` giving `None` for a missing flat key. -/
structure RPour where
  start : Value
  stop : Value
  water_added : Value

/-- `reconstruct_pours`: collect indices from keys `brewing.pours.N.*`,
sort ascending numerically, and rebuild one pour per index from the exact
flat keys, missing sub-fields becoming `None`. -/
def reconstruct_pours (meta : Dict) : List RPour :=
  (pourIdxList meta).map fun i =>
    ⟨(dictGet meta ("brewing.pours." ++ intStr i ++ ".start")).getD Value.null,
     (dictGet meta ("brewing.pours." ++ intStr i ++ ".end")).getD Value.null,
     (dictGet meta ("brewing.pours." ++ intStr i ++ ".water_added")).getD Value.null⟩

/-- Every pair emitted by the `put` recursion carries a scalar value. -/
theorem san_scalar_all :
    (∀ (k : String) (v : Value), ∀ p ∈ sanPairs k v, isScalar p.2) ∧
    (∀ (k : String) (fs : List (String × Value)), ∀ p ∈ sanFields k fs, isScalar p.2) ∧
    (∀ (k : String) (i : Nat) (vs : List Value), ∀ p ∈ sanObjList k i vs, isScalar p.2) := by
  apply sanPairs.mutual_induct
    (fun k v => ∀ p ∈ sanPairs k v, isScalar p.2)
    (fun k fs => ∀ p ∈ sanFields k fs, isScalar p.2)
    (fun k i vs => ∀ p ∈ sanObjList k i vs, isScalar p.2)
  case case1 =>
    intro k s p hp
    simp [sanPairs] at hp
    simp [hp, isScalar]
  case case2 =>
    intro k n p hp
    simp [sanPairs] at hp
    simp [hp, isScalar]
  case case3 =>
    intro k q p hp
    simp [sanPairs] at hp
    simp [hp, isScalar]
  case case4 =>
    intro k b p hp
    simp [sanPairs] at hp
    simp [hp, isScalar]
  case case5 =>
    intro k p hp
    simp [sanPairs] at hp
    simp [hp, isScalar]
  case case6 =>
    intro k vs hc ih p hp
    simp only [sanPairs, hc, if_true] at hp
    exact ih p hp
  case case7 =>
    intro k vs hc p hp
    simp only [sanPairs, if_neg hc] at hp
    simp at hp
    simp [hp, isScalar]
  case case8 =>
    intro k fields ih p hp
    simp only [sanPairs] at hp
    exact ih p hp
  case case9 =>
    intro k i p hp
    simp [sanObjList] at hp
  case case10 =>
    intro k i fields rest ih1 ih2 p hp
    simp only [sanObjList, List.mem_append] at hp
    rcases hp with h | h
    · exact ih1 p h
    · exact ih2 p h
  case case11 =>
    intro k i head rest hno ih p hp
    match head, hp with
    | Value.str s, hp => exact ih p hp
    | Value.int n, hp => exact ih p hp
    | Value.num q, hp => exact ih p hp
    | Value.bool b, hp => exact ih p hp
    | Value.null, hp => exact ih p hp
    | Value.list vs, hp => exact ih p hp
    | Value.obj fs, hp => exact absurd rfl (fun h => hno fs h)
  case case12 =>
    intro k p hp
    simp [sanFields] at hp
  case case13 =>
    intro k kk vv rest ih1 ih2 p hp
    simp only [sanFields, List.mem_append] at hp
    rcases hp with h | h
    · exact ih1 p h
    · exact ih2 p h

/-! ## Decimal digits and key-splitting lemmas for the round trip -/

theorem natDigits_ne_nil (n : Nat) : natDigits n ≠ [] := by
  rw [natDigits]
  split
  · simp
  · simp

theorem digitChar_isDigit {d : Nat} (h : d < 10) : (digitChar d).isDigit = true := by
  interval_cases d <;> decide

theorem digitChar_toNat {d : Nat} (h : d < 10) : (digitChar d).toNat = 48 + d := by
  interval_cases d <;> rfl

theorem natDigits_digits (n : Nat) : ∀ c ∈ natDigits n, c.isDigit = true := by
  induction n using Nat.strong_induction_on with
  | _ n ih =>
    rw [natDigits]
    split
    next h =>
      intro c hc
      simp at hc
      rw [hc]
      exact digitChar_isDigit h
    next h =>
      intro c hc
      rw [List.mem_append] at hc
      rcases hc with hc | hc
      · exact ih (n / 10) (Nat.div_lt_self (by omega) (by omega)) c hc
      · simp at hc
        rw [hc]
        exact digitChar_isDigit (Nat.mod_lt _ (by omega))

theorem digitsVal_append_one (ds : List Char) (c : Char) :
    digitsVal (ds ++ [c]) = digitsVal ds * 10 + (c.toNat - 48) := by
  rw [digitsVal, digitsVal, List.foldl_append]
  rfl

theorem digitsVal_natDigits (n : Nat) : digitsVal (natDigits n) = n := by
  induction n using Nat.strong_induction_on with
  | _ n ih =>
    rw [natDigits]
    split
    next h =>
      simp [digitsVal, digitChar_toNat h]
    next h =>
      rw [digitsVal_append_one, ih (n / 10) (Nat.div_lt_self (by omega) (by omega)),
        digitChar_toNat (Nat.mod_lt _ (by omega))]
      omega

theorem isDigit_ne {c c' : Char} (h : c.isDigit = true) (h' : c'.isDigit = false) :
    c ≠ c' := by
  intro he
  rw [he, h'] at h
  exact Bool.false_ne_true h

theorem pyIntChars_natDigits (n : Nat) : pyIntChars (natDigits n) = some (n : Int) := by
  have hall := natDigits_digits n
  cases hd : natDigits n with
  | nil => exact absurd hd (natDigits_ne_nil n)
  | cons c ds =>
    have hc : c.isDigit = true := hall c (by rw [hd]; simp)
    rw [pyIntChars]
    rw [if_neg (isDigit_ne hc (by decide)), if_neg (isDigit_ne hc (by decide))]
    rw [if_pos]
    · rw [← hd, digitsVal_natDigits]
    · rw [← hd]
      exact List.all_eq_true.mpr hall

theorem splitChars_ne_nil (sep : Char) (cs : List Char) : splitChars sep cs ≠ [] := by
  induction cs with
  | nil => simp [splitChars]
  | cons c rest ih =>
    rw [splitChars]
    split
    · simp
    · cases h : splitChars sep rest with
      | nil => simp
      | cons g gs => simp

theorem splitChars_cons_self (sep : Char) (cs : List Char) :
    splitChars sep (sep :: cs) = [] :: splitChars sep cs := by
  rw [splitChars, if_pos rfl]

theorem splitChars_append_block (sep : Char) (xs rest : List Char)
    (hxs : ∀ c ∈ xs, c ≠ sep) :
    splitChars sep (xs ++ sep :: rest) = xs :: splitChars sep rest := by
  induction xs with
  | nil => simpa using splitChars_cons_self sep rest
  | cons x xs' ih =>
    have hx : x ≠ sep := hxs x (by simp)
    rw [List.cons_append, splitChars, if_neg hx,
      ih (fun c hc => hxs c (List.mem_cons_of_mem _ hc))]

theorem strExt {s t : String} (h : s.data = t.data) : s = t := by
  cases s
  cases t
  simp only at h
  rw [h]

theorem strData_append (s t : String) : (s ++ t).data = s.data ++ t.data := by
  cases s
  cases t
  rfl

theorem isPrefixOf_append_self (xs ys : List Char) : xs.isPrefixOf (xs ++ ys) = true := by
  induction xs with
  | nil => simp [List.isPrefixOf]
  | cons x xs' ih => simp [List.isPrefixOf, ih]

/-- The flat key the `sanitize_meta` recursion produces for sub-field `kk`
of the pour at index `i` under a top-level `brewing.pours` list. -/
def genPourKey (i : Nat) (kk : String) : String :=
  (("brewing" ++ "." ++ "pours") ++ "." ++ natStr i) ++ "." ++ kk

theorem genPourKey_data (i : Nat) (kk : String) :
    (genPourKey i kk).data =
      "brewing".data ++ '.' :: ("pours".data ++ '.' :: (natDigits i ++ '.' :: kk.data)) := by
  simp [genPourKey, strData_append, natStr, List.append_assoc]

theorem pre14_data :
    ("brewing.pours." : String).data = "brewing".data ++ '.' :: ("pours".data ++ ['.']) := by
  decide

theorem genPourKey_data_pre (i : Nat) (kk : String) :
    (genPourKey i kk).data =
      ("brewing.pours." : String).data ++ (natDigits i ++ '.' :: kk.data) := by
  rw [genPourKey_data, pre14_data]
  simp [List.append_assoc]

theorem pourIdx_genPourKey (i : Nat) (kk : String) :
    pourIdx (genPourKey i kk) = some (Int.ofNat i) := by
  have hsplit : splitChars '.' (genPourKey i kk).data =
      "brewing".data :: "pours".data :: natDigits i :: splitChars '.' kk.data := by
    rw [genPourKey_data]
    rw [splitChars_append_block '.' _ _ (by decide)]
    rw [splitChars_append_block '.' _ _ (by decide)]
    rw [splitChars_append_block '.' _ _
      (fun c hc => isDigit_ne (natDigits_digits i c hc) (by decide))]
  rw [pourIdx, if_pos]
  · rw [pySplitDots, hsplit]
    simp only [List.map_cons, List.get?]
    exact pyIntChars_natDigits i
  · rw [strStarts, genPourKey_data_pre]
    exact isPrefixOf_append_self _ _

theorem intStr_ofNat (i : Nat) : intStr (Int.ofNat i) = natStr i := by
  rw [intStr, if_neg (by simp only [Int.ofNat_eq_natCast]; omega)]
  rfl

theorem reconKey_start (i : Nat) :
    "brewing.pours." ++ intStr (Int.ofNat i) ++ ".start" = genPourKey i "start" := by
  rw [intStr_ofNat]
  apply strExt
  rw [genPourKey_data_pre]
  have h : (".start" : String).data = '.' :: ("start" : String).data := by decide
  simp [strData_append, natStr, List.append_assoc, h]

theorem reconKey_stop (i : Nat) :
    "brewing.pours." ++ intStr (Int.ofNat i) ++ ".end" = genPourKey i "end" := by
  rw [intStr_ofNat]
  apply strExt
  rw [genPourKey_data_pre]
  have h : (".end" : String).data = '.' :: ("end" : String).data := by decide
  simp [strData_append, natStr, List.append_assoc, h]

theorem reconKey_water (i : Nat) :
    "brewing.pours." ++ intStr (Int.ofNat i) ++ ".water_added" = genPourKey i "water_added" := by
  rw [intStr_ofNat]
  apply strExt
  rw [genPourKey_data_pre]
  have h : (".water_added" : String).data = '.' :: ("water_added" : String).data := by decide
  simp [strData_append, natStr, List.append_assoc, h]

theorem genPourKey_inj {i j : Nat} {kk kk' : String}
    (h : genPourKey i kk = genPourKey j kk') : i = j ∧ kk = kk' := by
  have hidx := congrArg pourIdx h
  rw [pourIdx_genPourKey, pourIdx_genPourKey] at hidx
  have hij : i = j := by
    injection hidx with h'
    exact Int.ofNat.inj h' 
  subst hij
  refine ⟨rfl, ?_⟩
  have hd := congrArg String.data h
  rw [genPourKey_data, genPourKey_data] at hd
  simp at hd
  exact strExt hd

/-- An original pour object `{start, end, water_added}` built from a triple. -/
def pourObj (t : Value × Value × Value) : Value :=
  Value.obj [("start", t.1), ("end", t.2.1), ("water_added", t.2.2)]

/-- A record whose `brewing` section holds exactly the given pours list. -/
def pourMeta (ps : List (Value × Value × Value)) : Dict :=
  [("brewing", Value.obj [("pours", Value.list (ps.map pourObj))])]

/-- The flat pairs `sanitize_meta` emits for the pours list, starting at
index `i0`. -/
def pourBlocks (i0 : Nat) : List (Value × Value × Value) → List (String × Value)
  | [] => []
  | t :: rest =>
    (genPourKey i0 "start", t.1) :: (genPourKey i0 "end", t.2.1) ::
      (genPourKey i0 "water_added", t.2.2) :: pourBlocks (i0 + 1) rest

theorem sanPairs_of_scalar {v : Value} (h : isScalar v) (k : String) :
    sanPairs k v = [(k, v)] := by
  cases v
  · rfl
  · rfl
  · rfl
  · rfl
  · rfl
  · exact h.elim
  · exact h.elim

theorem sanObjList_pourObjs (ps : List (Value × Value × Value)) (i0 : Nat)
    (h : ∀ t ∈ ps, isScalar t.1 ∧ isScalar t.2.1 ∧ isScalar t.2.2) :
    sanObjList ("brewing" ++ "." ++ "pours") i0 (ps.map pourObj) = pourBlocks i0 ps := by
  induction ps generalizing i0 with
  | nil => rfl
  | cons t rest ih =>
    obtain ⟨h1, h2, h3⟩ := h t (by simp)
    rw [List.map_cons]
    simp only [pourObj, sanObjList, sanFields, sanPairs_of_scalar h1,
      sanPairs_of_scalar h2, sanPairs_of_scalar h3, pourBlocks,
      List.append_nil, List.nil_append, List.cons_append]
    rw [ih _ (fun t' ht' => h t' (List.mem_cons_of_mem _ ht'))]
    rfl

theorem dictHasKey_iff {d : Dict} {k : String} :
    dictHasKey d k = true ↔ k ∈ d.map Prod.fst := by
  induction d with
  | nil => simp [dictHasKey]
  | cons kv rest ih =>
    cases kv with
    | mk k' v =>
      rw [dictHasKey]
      by_cases h : k' = k
      · simp [h]
      · simp only [if_neg h, List.map_cons, List.mem_cons]
        rw [ih]
        constructor
        · exact fun hm => Or.inr hm
        · rintro (he | hm)
          · exact absurd he.symm h
          · exact hm

theorem dictPut_not_has {d : Dict} {k : String} (h : dictHasKey d k = false) (v : Value) :
    dictPut d k v = d ++ [(k, v)] := by
  induction d with
  | nil => rfl
  | cons kv rest ih =>
    cases kv with
    | mk k' v' =>
      rw [dictHasKey] at h
      rw [dictPut]
      by_cases he : k' = k
      · rw [if_pos he] at h
        exact absurd h (by simp)
      · rw [if_neg he] at h
        rw [if_neg he, ih h]
        rfl

theorem dictHasKey_append (d1 d2 : Dict) (k : String) :
    dictHasKey (d1 ++ d2) k = (dictHasKey d1 k || dictHasKey d2 k) := by
  induction d1 with
  | nil => simp [dictHasKey]
  | cons kv rest ih =>
    cases kv with
    | mk k' v =>
      rw [List.cons_append, dictHasKey, dictHasKey]
      by_cases he : k' = k
      · simp [he]
      · simp [he, ih]

theorem foldl_dictPut_eq_append (l : Dict) (d : Dict)
    (hd : ∀ kv ∈ l, dictHasKey d kv.1 = false)
    (hl : (l.map Prod.fst).Nodup) :
    l.foldl (fun acc kv => dictPut acc kv.1 kv.2) d = d ++ l := by
  induction l generalizing d with
  | nil => simp
  | cons kv rest ih =>
    rw [List.foldl_cons, dictPut_not_has (hd kv (by simp)) kv.2]
    rw [List.map_cons, List.nodup_cons] at hl
    rw [ih (d ++ [(kv.1, kv.2)]) ?_ hl.2]
    · simp
    · intro kv' hkv'
      have h1 : dictHasKey d kv'.1 = false := hd kv' (List.mem_cons_of_mem _ hkv')
      have h2 : kv.1 ≠ kv'.1 := by
        intro he
        exact hl.1 (he ▸ List.mem_map_of_mem Prod.fst hkv')
      rw [dictHasKey_append, h1]
      simp [dictHasKey, h2]

theorem dictGet_append_of_none {d1 : Dict} {k : String} (h : dictGet d1 k = none)
    (d2 : Dict) : dictGet (d1 ++ d2) k = dictGet d2 k := by
  induction d1 with
  | nil => rfl
  | cons kv rest ih =>
    cases kv with
    | mk k' v =>
      rw [dictGet] at h
      rw [List.cons_append, dictGet]
      by_cases he : k' = k
      · rw [if_pos he] at h
        exact absurd h (by simp)
      · rw [if_neg he] at h ⊢
        exact ih h

theorem pourBlocks_keys_mem {i0 : Nat} {ps : List (Value × Value × Value)} {s : String}
    (h : s ∈ (pourBlocks i0 ps).map Prod.fst) :
    ∃ j kk, i0 ≤ j ∧ j < i0 + ps.length ∧ s = genPourKey j kk := by
  induction ps generalizing i0 with
  | nil => simp [pourBlocks] at h
  | cons t rest ih =>
    rw [pourBlocks] at h
    simp only [List.map_cons, List.mem_cons] at h
    rcases h with h | h | h | h
    · exact ⟨i0, "start", le_refl _, by simp, h⟩
    · exact ⟨i0, "end", le_refl _, by simp, h⟩
    · exact ⟨i0, "water_added", le_refl _, by simp, h⟩
    · obtain ⟨j, kk, h1, h2, h3⟩ := ih h
      exact ⟨j, kk, by omega, by simp at h2 ⊢; omega, h3⟩

theorem pourBlocks_keys_nodup (i0 : Nat) (ps : List (Value × Value × Value)) :
    ((pourBlocks i0 ps).map Prod.fst).Nodup := by
  induction ps generalizing i0 with
  | nil => simp [pourBlocks]
  | cons t rest ih =>
    have hne : ∀ kk kk' : String, kk ≠ kk' → genPourKey i0 kk ≠ genPourKey i0 kk' :=
      fun kk kk' hkk he => hkk (genPourKey_inj he).2
    have hnotmem : ∀ kk : String, genPourKey i0 kk ∉ (pourBlocks (i0 + 1) rest).map Prod.fst := by
      intro kk hmem
      obtain ⟨j, kk', hj, _, he⟩ := pourBlocks_keys_mem hmem
      have := (genPourKey_inj he).1
      omega
    rw [pourBlocks]
    simp only [List.map_cons, List.nodup_cons, List.mem_cons]
    refine ⟨?_, ?_, ?_, ih (i0 + 1)⟩
    · push_neg
      exact ⟨hne _ _ (by decide), hne _ _ (by decide), hnotmem _⟩
    · push_neg
      exact ⟨hne _ _ (by decide), hnotmem _⟩
    · exact hnotmem _

theorem sanitize_pourMeta (ps : List (Value × Value × Value))
    (h : ∀ t ∈ ps, isScalar t.1 ∧ isScalar t.2.1 ∧ isScalar t.2.2) (hne : ps ≠ []) :
    sanitize_meta (pourMeta ps) = pourBlocks 0 ps := by
  have hguard : (!(ps.map pourObj).isEmpty && (ps.map pourObj).all isObjB) = true := by
    rw [Bool.and_eq_true]
    constructor
    · cases ps with
      | nil => exact absurd rfl hne
      | cons t rest => rfl
    · rw [List.all_eq_true]
      intro v hv
      rw [List.mem_map] at hv
      obtain ⟨t', _, rfl⟩ := hv
      rfl
  rw [sanitize_meta, pourMeta]
  simp only [List.map_cons, List.map_nil, List.flatten]
  rw [show sanPairs "brewing" (Value.obj [("pours", Value.list (ps.map pourObj))]) =
      sanPairs ("brewing" ++ "." ++ "pours") (Value.list (ps.map pourObj)) ++ [] from rfl]
  rw [List.append_nil]
  rw [show sanPairs ("brewing" ++ "." ++ "pours") (Value.list (ps.map pourObj)) =
      if !(ps.map pourObj).isEmpty && (ps.map pourObj).all isObjB then
        sanObjList ("brewing" ++ "." ++ "pours") 0 (ps.map pourObj)
      else [("brewing" ++ "." ++ "pours",
        Value.str (joinSep ", " ((ps.map pourObj).map pyStr)))] from rfl]
  rw [if_pos hguard, sanObjList_pourObjs ps 0 h]
  have := foldl_dictPut_eq_append (pourBlocks 0 ps) []
    (fun kv _ => rfl) (pourBlocks_keys_nodup 0 ps)
  simpa using this

theorem genPourKey_ne_of_field {kk kk' : String} (i : Nat) (h : kk ≠ kk') :
    genPourKey i kk ≠ genPourKey i kk' :=
  fun he => h (genPourKey_inj he).2

theorem dictGet_pourBlocks (i0 j : Nat) (ps : List (Value × Value × Value))
    (hj : j < ps.length) :
    dictGet (pourBlocks i0 ps) (genPourKey (i0 + j) "start") = some (ps.get ⟨j, hj⟩).1 ∧
    dictGet (pourBlocks i0 ps) (genPourKey (i0 + j) "end") = some (ps.get ⟨j, hj⟩).2.1 ∧
    dictGet (pourBlocks i0 ps) (genPourKey (i0 + j) "water_added") =
      some (ps.get ⟨j, hj⟩).2.2 := by
  induction ps generalizing i0 j with
  | nil => simp at hj
  | cons t rest ih =>
    cases j with
    | zero =>
      rw [pourBlocks]
      simp only [Nat.add_zero]
      refine ⟨?_, ?_, ?_⟩
      · rw [dictGet, if_pos rfl]
        rfl
      · rw [dictGet, if_neg (genPourKey_ne_of_field i0 (by decide)),
          dictGet, if_pos rfl]
        rfl
      · rw [dictGet, if_neg (genPourKey_ne_of_field i0 (by decide)),
          dictGet, if_neg (genPourKey_ne_of_field i0 (by decide)),
          dictGet, if_pos rfl]
        rfl
    | succ j' =>
      have hne : ∀ kk kk' : String, genPourKey i0 kk ≠ genPourKey (i0 + (j' + 1)) kk' := by
        intro kk kk' he
        have := (genPourKey_inj he).1
        omega
      have hskip : ∀ kk : String,
          dictGet (pourBlocks i0 (t :: rest)) (genPourKey (i0 + (j' + 1)) kk) =
            dictGet (pourBlocks (i0 + 1) rest) (genPourKey (i0 + (j' + 1)) kk) := by
        intro kk
        rw [pourBlocks, dictGet, if_neg (hne _ _), dictGet, if_neg (hne _ _),
          dictGet, if_neg (hne _ _)]
      have hj' : j' < rest.length := by simpa using Nat.lt_of_succ_lt_succ hj
      have hrec := ih (i0 + 1) j' hj'
      have harith : i0 + (j' + 1) = i0 + 1 + j' := by omega
      refine ⟨?_, ?_, ?_⟩
      · rw [hskip, harith, hrec.1]
        rfl
      · rw [hskip, harith, hrec.2.1]
        rfl
      · rw [hskip, harith, hrec.2.2]
        rfl

theorem mem_filterMap_pourIdx {i0 : Nat} {ps : List (Value × Value × Value)} {x : Int} :
    x ∈ ((pourBlocks i0 ps).map Prod.fst).filterMap pourIdx ↔
      ∃ j : Nat, i0 ≤ j ∧ j < i0 + ps.length ∧ x = Int.ofNat j := by
  induction ps generalizing i0 with
  | nil =>
    simp only [pourBlocks, List.map_nil, List.filterMap_nil, List.not_mem_nil, false_iff,
      List.length_nil]
    rintro ⟨j, h1, h2, _⟩
    omega
  | cons t rest ih =>
    rw [pourBlocks]
    simp only [List.map_cons, List.filterMap_cons, pourIdx_genPourKey]
    simp only [List.mem_cons, ih, List.length_cons]
    constructor
    · rintro (rfl | rfl | rfl | ⟨j, h1, h2, h3⟩)
      · exact ⟨i0, le_refl _, by omega, rfl⟩
      · exact ⟨i0, le_refl _, by omega, rfl⟩
      · exact ⟨i0, le_refl _, by omega, rfl⟩
      · exact ⟨j, by omega, by omega, h3⟩
    · rintro ⟨j, h1, h2, rfl⟩
      by_cases hj : j = i0
      · subst hj
        exact Or.inl rfl
      · exact Or.inr (Or.inr (Or.inr ⟨j, by omega, by omega, rfl⟩))

theorem sortAscInt_sorted (l : List Int) : List.Sorted (· ≤ ·) (sortAscInt l) :=
  List.sorted_insertionSort (· ≤ ·) l

theorem sortAscInt_perm (l : List Int) : (sortAscInt l).Perm l :=
  List.perm_insertionSort (· ≤ ·) l

theorem pourIdxList_sorted_nodup (meta : Dict) :
    List.Sorted (· < ·) (pourIdxList meta) := by
  rw [pourIdxList]
  have hnd : (sortAscInt ((meta.map Prod.fst).filterMap pourIdx).dedup).Nodup :=
    ((sortAscInt_perm _).nodup_iff).mpr (List.nodup_dedup _)
  exact (sortAscInt_sorted _).lt_of_le hnd

theorem pourIdxList_pourBlocks (ps : List (Value × Value × Value)) :
    pourIdxList (pourBlocks 0 ps) = (List.range ps.length).map Int.ofNat := by
  have hT_lt : List.Sorted (· < ·) ((List.range ps.length).map Int.ofNat) := by
    refine List.Pairwise.map _ ?_ (List.pairwise_lt_range ps.length)
    intro a b hab
    simp only [Int.ofNat_eq_natCast]
    exact_mod_cast hab
  have hT_nodup : ((List.range ps.length).map Int.ofNat).Nodup :=
    hT_lt.imp (fun h => ne_of_lt h)
  have hS_nodup : (pourIdxList (pourBlocks 0 ps)).Nodup := by
    rw [pourIdxList]
    exact ((sortAscInt_perm _).nodup_iff).mpr (List.nodup_dedup _)
  have hmem : ∀ x : Int,
      x ∈ pourIdxList (pourBlocks 0 ps) ↔ x ∈ (List.range ps.length).map Int.ofNat := by
    intro x
    rw [pourIdxList, (sortAscInt_perm _).mem_iff, List.mem_dedup, mem_filterMap_pourIdx]
    simp only [List.mem_map, List.mem_range]
    constructor
    · rintro ⟨j, _, h2, rfl⟩
      exact ⟨j, by omega, rfl⟩
    · rintro ⟨j, hj, rfl⟩
      exact ⟨j, by omega, by omega, rfl⟩
  have hperm : (pourIdxList (pourBlocks 0 ps)).Perm ((List.range ps.length).map Int.ofNat) :=
    (List.perm_ext_iff_of_nodup hS_nodup hT_nodup).mpr hmem
  exact List.eq_of_perm_of_sorted hperm (pourIdxList_sorted_nodup _) hT_lt

theorem reconstruct_pourMeta (ps : List (Value × Value × Value))
    (h : ∀ t ∈ ps, isScalar t.1 ∧ isScalar t.2.1 ∧ isScalar t.2.2) :
    reconstruct_pours (sanitize_meta (pourMeta ps)) =
      ps.map (fun t => RPour.mk t.1 t.2.1 t.2.2) := by
  by_cases hne : ps = []
  · subst hne
    rfl
  · rw [sanitize_pourMeta ps h hne, reconstruct_pours, pourIdxList_pourBlocks, List.map_map]
    refine List.ext_getElem (by simp) ?_
    intro j h1 h2
    simp only [List.getElem_map, List.getElem_range, Function.comp]
    have hj : j < ps.length := by simpa using h2
    have hd := dictGet_pourBlocks 0 j ps hj
    rw [Nat.zero_add] at hd
    rw [reconKey_start, reconKey_stop, reconKey_water, hd.1, hd.2.1, hd.2.2]
    simp [List.get_eq_getElem]

theorem mem_dictPut {d : Dict} {k : String} {v : Value} {p : String × Value}
    (hp : p ∈ dictPut d k v) : p = (k, v) ∨ p ∈ d := by
  induction d with
  | nil => simpa [dictPut] using hp
  | cons kv rest ih =>
    cases kv with
    | mk k' v' =>
      rw [dictPut] at hp
      by_cases he : k' = k
      · rw [if_pos he] at hp
        rcases List.mem_cons.mp hp with h1 | h1
        · exact Or.inl h1
        · exact Or.inr (List.mem_cons_of_mem _ h1)
      · rw [if_neg he] at hp
        rcases List.mem_cons.mp hp with h1 | h1
        · exact Or.inr (h1 ▸ List.mem_cons_self _ _)
        · rcases ih h1 with h2 | h2
          · exact Or.inl h2
          · exact Or.inr (List.mem_cons_of_mem _ h2)

theorem mem_foldl_dictPut {l : Dict} {d : Dict} {p : String × Value}
    (hp : p ∈ l.foldl (fun acc kv => dictPut acc kv.1 kv.2) d) :
    p ∈ d ∨ ∃ kv ∈ l, p = (kv.1, kv.2) := by
  induction l generalizing d with
  | nil => exact Or.inl hp
  | cons kv rest ih =>
    rw [List.foldl_cons] at hp
    rcases ih hp with h1 | h1
    · rcases mem_dictPut h1 with h2 | h2
      · exact Or.inr ⟨kv, List.mem_cons_self _ _, h2⟩
      · exact Or.inl h2
    · obtain ⟨kv', hkv', he⟩ := h1
      exact Or.inr ⟨kv', List.mem_cons_of_mem _ hkv', he⟩

/-- C6: `Flatten` (`sanitize_meta`) is a total function over every JSON-like
input by construction: the embedding covers every `Value` (any nesting of
strings, numbers, booleans, nulls, lists and objects), the
heterogeneous-list arm coerces elements to their string representations and
joins them instead of raising, and every value in the resulting flat map is
a scalar. -/
theorem sanitize_meta_total_scalar (meta : Dict) :
    ∀ p ∈ sanitize_meta meta, isScalar p.2 := by
  intro p hp
  rw [sanitize_meta] at hp
  rcases mem_foldl_dictPut hp with h1 | h1
  · simp at h1
  · obtain ⟨kv, hkv, he⟩ := h1
    rw [List.mem_flatten] at hkv
    obtain ⟨l', hl', hkvl⟩ := hkv
    rw [List.mem_map] at hl'
    obtain ⟨kv0, _, rfl⟩ := hl'
    have := san_scalar_all.1 kv0.1 kv0.2 kv hkvl
    rw [he]
    exact this

theorem sanitize_meta_total_scalar_witness :
    isScalar (("a", Value.str "1, x") : String × Value).2 :=
  sanitize_meta_total_scalar [("a", Value.list [Value.int 1, Value.str "x"])]
    ("a", Value.str "1, x") (by simp [sanitize_meta, sanPairs, dictPut, joinSep, pyStr,
      pyRepr, intStr, natStr, natDigits, digitChar, isObjB])

/-- C5: `reconstruct_pours` collects the distinct indices of
`brewing.pours.<index>.<field>` keys and sorts them ascending numerically
(`10` after `9`, not lexically), rebuilds one pour per index with missing
sub-fields becoming `None` rather than an error, and reconstructing the
flattening of a record's pours list yields back the original scalar leaves
in original list order. -/
theorem reconstruct_pours_round_trip :
    (∀ ps : List (Value × Value × Value),
        (∀ t ∈ ps, isScalar t.1 ∧ isScalar t.2.1 ∧ isScalar t.2.2) →
        reconstruct_pours (sanitize_meta (pourMeta ps)) =
          ps.map (fun t => RPour.mk t.1 t.2.1 t.2.2)) ∧
    (∀ meta : Dict, List.Sorted (· < ·) (pourIdxList meta)) ∧
    pourIdxList
        [("brewing.pours.10.start", Value.int 0), ("brewing.pours.9.start", Value.int 0)] =
      [9, 10] ∧
    reconstruct_pours [("brewing.pours.0.start", Value.int 3)] =
      [RPour.mk (Value.int 3) Value.null Value.null] := by
  refine ⟨reconstruct_pourMeta, pourIdxList_sorted_nodup, by decide, ?_⟩
  have h0 : natStr 0 = "0" := by
    rw [natStr, natDigits]
    rfl
  have hs : ("brewing.pours." ++ intStr 0 ++ ".start" : String) = "brewing.pours.0.start" := by
    rw [show (0 : Int) = Int.ofNat 0 from rfl, intStr_ofNat, h0]
    decide
  have he : ("brewing.pours." ++ intStr 0 ++ ".end" : String) = "brewing.pours.0.end" := by
    rw [show (0 : Int) = Int.ofNat 0 from rfl, intStr_ofNat, h0]
    decide
  have hw : ("brewing.pours." ++ intStr 0 ++ ".water_added" : String) =
      "brewing.pours.0.water_added" := by
    rw [show (0 : Int) = Int.ofNat 0 from rfl, intStr_ofNat, h0]
    decide
  rw [reconstruct_pours,
    show pourIdxList [("brewing.pours.0.start", Value.int 3)] = [0] from by decide,
    List.map_cons, List.map_nil, hs, he, hw]
  rfl

theorem reconstruct_pours_round_trip_witness :
    reconstruct_pours (sanitize_meta (pourMeta
        [(Value.int 0, Value.int 30, Value.int 60),
         (Value.int 30, Value.int 60, Value.int 140)])) =
      [RPour.mk (Value.int 0) (Value.int 30) (Value.int 60),
       RPour.mk (Value.int 30) (Value.int 60) (Value.int 140)] :=
  reconstruct_pours_round_trip.1
    [(Value.int 0, Value.int 30, Value.int 60), (Value.int 30, Value.int 60, Value.int 140)]
    (by
      intro t ht
      simp at ht
      rcases ht with rfl | rfl
      · exact ⟨trivial, trivial, trivial⟩
      · exact ⟨trivial, trivial, trivial⟩)

/-! ## C10: the HTTP service's metadata decoding never feeds the jag branch -/

theorem mem_foldl_dictPut_map {f : String → String} {l : Dict} {d : Dict}
    {p : String × Value}
    (hp : p ∈ l.foldl (fun acc kv => dictPut acc (f kv.1) kv.2) d) :
    p ∈ d ∨ ∃ kv ∈ l, p = (f kv.1, kv.2) := by
  induction l generalizing d with
  | nil => exact Or.inl hp
  | cons kv rest ih =>
    rw [List.foldl_cons] at hp
    rcases ih hp with h1 | h1
    · rcases mem_dictPut h1 with h2 | h2
      · exact Or.inr ⟨kv, List.mem_cons_self _ _, h2⟩
      · exact Or.inl h2
    · obtain ⟨kv', hkv', he⟩ := h1
      exact Or.inr ⟨kv', List.mem_cons_of_mem _ hkv', he⟩

theorem dictGet_mem {d : Dict} {k : String} {v : Value} (h : dictGet d k = some v) :
    (k, v) ∈ d := by
  induction d with
  | nil => simp [dictGet] at h
  | cons kv rest ih =>
    cases kv with
    | mk k' v' =>
      rw [dictGet] at h
      by_cases he : k' = k
      · rw [if_pos he] at h
        injection h with h
        rw [← he, ← h]
        exact List.mem_cons_self _ _
      · rw [if_neg he] at h
        exact List.mem_cons_of_mem _ (ih h)

/-- A scalar-valued evaluation dict never produces JAG values: the `jag`
lookup either misses or yields a non-dict, so the `isinstance` guard fails. -/
theorem jagRawVals_eq_nil_of_scalar {evaluation : Dict}
    (h : ∀ p ∈ evaluation, isScalar p.2) : jagRawVals evaluation = [] := by
  rw [jagRawVals]
  cases hj : dictGet evaluation "jag" with
  | none => rfl
  | some v =>
    have hv : isScalar v := h ("jag", v) (dictGet_mem hj)
    cases v
    · rfl
    · rfl
    · rfl
    · rfl
    · rfl
    · exact hv.elim
    · exact hv.elim

/-- The values stored by `_extract_evaluation` all come from the raw flat
metadata, so they are scalars whenever the metadata is scalar-valued. -/
theorem svcExtractEvaluation_scalar {meta : Dict} (hs : ∀ p ∈ meta, isScalar p.2) :
    ∀ p ∈ svcExtractEvaluation meta, isScalar p.2 := by
  intro p hp
  rw [svcExtractEvaluation] at hp
  rcases mem_foldl_dictPut_map hp with h1 | h1
  · simp at h1
  · obtain ⟨kv, hkv, he⟩ := h1
    rw [List.mem_filter] at hkv
    rw [he]
    exact hs kv hkv.1

/-- C10: in the HTTP service's retrieval path, `_extract_evaluation` maps the
flat-codec keys `evaluation.jag.<metric>` to flat keys `jag.<metric>` instead
of a nested `jag` dict, so the scorer's jag branch never contributes: for
every scalar-valued stored flat metadata map, the evaluation score equals
the liking-only score (`liking/10` when parseable, else `0.0`). -/
theorem service_jag_never_contributes (meta : Dict)
    (hs : ∀ p ∈ meta, isScalar p.2) :
    compute_evaluation_score (svcExtractEvaluation meta) =
      match likingVal (svcExtractEvaluation meta) with
      | some q => q / 10
      | none => 0 := by
  have hjr : jagRawVals (svcExtractEvaluation meta) = [] :=
    jagRawVals_eq_nil_of_scalar (svcExtractEvaluation_scalar hs)
  cases hl : likingVal (svcExtractEvaluation meta) with
  | some q => exact score_eq_liking_only hl hjr
  | none => exact score_eq_zero_of_none hl hjr

theorem service_jag_never_contributes_witness :
    compute_evaluation_score (svcExtractEvaluation
        [("evaluation.liking", Value.int 8), ("evaluation.jag.acidity", Value.int 5)]) =
      match likingVal (svcExtractEvaluation
        [("evaluation.liking", Value.int 8), ("evaluation.jag.acidity", Value.int 5)]) with
      | some q => q / 10
      | none => 0 :=
  service_jag_never_contributes
    [("evaluation.liking", Value.int 8), ("evaluation.jag.acidity", Value.int 5)]
    (by
      intro p hp
      simp at hp
      rcases hp with rfl | rfl
      · exact trivial
      · exact trivial)

/-! ## Retrieval Gateway query-text derivation (`_build_query_text` in
`service.py` lines 162-188 with its caller, `main` in `query.py` lines
123-134) and `bean_text_from_obj` (`query.py` lines 24-32). -/

mutual
/-- `flatten` in `query.py` / `ingest.py` (the two copies are identical):
only dicts recurse into dotted keys; lists and all other values are leaves. -/
def qFlatPairs (k : String) (v : Value) : Dict :=
  match v with
  | .obj fields => qFlatFields k fields
  | v => [(k, v)]
def qFlatFields (k : String) (fields : Dict) : Dict :=
  match fields with
  | [] => []
  | (kk, vv) :: rest => qFlatPairs (k ++ "." ++ kk) vv ++ qFlatFields k rest
end

/-- `flatten(d)`: depth-first over dict values, writing into a fresh dict. -/
def flatten (d : Dict) : Dict :=
  ((d.map fun kv => qFlatPairs kv.1 kv.2).flatten).foldl
    (fun acc kv => dictPut acc kv.1 kv.2) []

/-- `BEAN_COLUMNS` (identical in `query.py` and `ingest.py`). -/
def BEAN_COLUMNS : List String :=
  ["bean.name", "bean.process", "bean.variety", "bean.region",
   "bean.roast_level", "bean.roasted_days", "bean.altitude", "bean.flavor_notes"]

/-- `list_to_str`: comma-join a list, pass anything else through. -/
def list_to_str : Value → Value
  | .list vs => .str (joinSep ", " (vs.map pyStr))
  | v => v

/-- The shared column projection: for each bean column in fixed order, take
`list_to_str(flat.get(k))`, skip `None`, render `"k: v"`, join with `" | "`.
This is the body of `bean_text` in `ingest.py` and the loop of
`bean_text_from_obj` in `query.py`.  (The `pd.isna` skip in `ingest.py`
concerns float NaN, which the rational model does not contain.) -/
def beanTextOfFlat (flat : Dict) : String :=
  joinSep " | " (BEAN_COLUMNS.filterMap fun k =>
    match dictGet flat k with
    | none => none
    | some v =>
      match list_to_str v with
      | Value.null => none
      | v' => some (k ++ ": " ++ pyStr v'))

/-- `bean_text_from_obj`: flatten first when the object looks like a full
record (has a `bean`/`brewing`/`evaluation` section), else use it as-is. -/
def bean_text_from_obj (obj : Dict) : String :=
  let flat :=
    if dictHasKey obj "bean" || dictHasKey obj "brewing" || dictHasKey obj "evaluation"
    then flatten obj else obj
  beanTextOfFlat flat

/-- The retrieval request payload (`RagQuery` model, query-relevant fields). -/
structure RagQueryP where
  user_id : String
  bean : Option Dict
  record : Option Dict
  query : Option String

/-- Outcome of `_build_query_text`: a query string, or the raised
`HTTPException(status_code=400, ...)`. -/
inductive BuildResult where
  | ok (text : String)
  | httpError (status : Nat) (detail : String)

/-- Python truthiness of a JSON-like value. -/
def pyTruthy : Value → Bool
  | .str s => !s.isEmpty
  | .int n => n != 0
  | .num q => decide (q ≠ 0)
  | .bool b => b
  | .null => false
  | .list vs => !vs.isEmpty
  | .obj fs => !fs.isEmpty

/-- `record = payload.record or {}`. -/
def recordOf (p : RagQueryP) : Dict :=
  match p.record with
  | some r => r
  | none => []

/-- `bean = payload.bean or record.get("bean")` (Python `or`: an empty bean
dict is falsy and falls through to the record's bean). -/
def beanOf (p : RagQueryP) : Option Value :=
  match p.bean with
  | some b => if b.isEmpty then dictGet (recordOf p) "bean" else some (Value.obj b)
  | none => dictGet (recordOf p) "bean"

/-- The tail of `_build_query_text` after the free-text check: derive `bean`,
raise 400 when it is falsy, else return `str(query_source)` - the Python
string representation of the record (when it has a `"bean"` key) or of
`{"bean": bean}`.  The function body's own comments call this a fallback,
and the `bean_text_from_obj` import on its line 174 is never used. -/
def buildFromBean (p : RagQueryP) : BuildResult :=
  match beanOf p with
  | none =>
    BuildResult.httpError 400
      "Provide a bean, full record, or free-text query to perform retrieval."
  | some bv =>
    if pyTruthy bv then
      BuildResult.ok (pyRepr (Value.obj
        (if dictHasKey (recordOf p) "bean" then recordOf p else [("bean", bv)])))
    else
      BuildResult.httpError 400
        "Provide a bean, full record, or free-text query to perform retrieval."

/-- `_build_query_text`: a truthy free-text `query` is returned verbatim,
else the bean/record path runs. -/
def buildQueryText (p : RagQueryP) : BuildResult :=
  match p.query with
  | some s => if s.isEmpty then buildFromBean p else BuildResult.ok s
  | none => buildFromBean p

/-- `main` in `query.py`: `--bean-json`/`--bean-inline` (modelled as the
parsed object) take the branch before `--q`; with neither, the program
exits (`none`).  An empty `--q` string is falsy and also exits. -/
def cliQueryText (beanInput : Option Dict) (q : Option String) : Option String :=
  match beanInput with
  | some beanObj => some (bean_text_from_obj beanObj)
  | none =>
    match q with
    | some s => if s.isEmpty then none else some s
    | none => none

/-- C7 counterexample: with no free text and a bean present, the served query
text is Python's `str()` of the wrapping dict, not `BeanQueryText`: for
`bean = {"name": "X"}` the service returns `"{'bean': {'name': 'X'}}"`
while `bean_text_from_obj` would give `"bean.name: X"`.  Moreover, in the
CLI a bean input takes precedence over explicit free text, contradicting
the claimed precedence order. -/
theorem query_text_not_bean_text_counterexample :
    buildQueryText ⟨"u", some [("name", Value.str "X")], none, none⟩ =
      BuildResult.ok "\x7b'bean': \x7b'name': 'X'\x7d\x7d" ∧
    bean_text_from_obj [("bean", Value.obj [("name", Value.str "X")])] = "bean.name: X" ∧
    ("\x7b'bean': \x7b'name': 'X'\x7d\x7d" : String) ≠ "bean.name: X" ∧
    cliQueryText (some [("bean", Value.obj [("name", Value.str "X")])]) (some "free text") =
      some "bean.name: X" := by
  exact ⟨rfl, rfl, by decide, rfl⟩

/-- C7 (amended): in the HTTP service a truthy free-text query is used
verbatim and wins; with no free text, a falsy derived bean (absent - and
also empty/falsy) yields the HTTP 400 client error; with a truthy derived
bean the query text is the Python string representation of the full record
(when it contains a `"bean"` key) or of `{"bean": bean}` - not
`BeanQueryText`.  In the CLI, a bean input takes precedence over free text
and is rendered through `bean_text_from_obj`. -/
theorem query_text_precedence_amended :
    (∀ (p : RagQueryP) (s : String), p.query = some s → s.isEmpty = false →
        buildQueryText p = BuildResult.ok s) ∧
    (∀ p : RagQueryP, p.query = none → beanOf p = none →
        buildQueryText p = BuildResult.httpError 400
          "Provide a bean, full record, or free-text query to perform retrieval.") ∧
    (∀ (p : RagQueryP) (bv : Value), p.query = none → beanOf p = some bv →
        pyTruthy bv = true →
        buildQueryText p = BuildResult.ok (pyRepr (Value.obj
          (if dictHasKey (recordOf p) "bean" then recordOf p else [("bean", bv)])))) ∧
    (∀ (beanObj : Dict) (q : Option String),
        cliQueryText (some beanObj) q = some (bean_text_from_obj beanObj)) := by
  refine ⟨?_, ?_, ?_, ?_⟩
  · intro p s hq hs
    simp only [buildQueryText, hq, hs, Bool.false_eq_true, if_false]
  · intro p hq hb
    simp only [buildQueryText, hq, buildFromBean, hb]
  · intro p bv hq hb htr
    simp only [buildQueryText, hq, buildFromBean, hb, htr, if_true]
  · intro beanObj q
    rfl

theorem query_text_precedence_amended_witness :
    buildQueryText ⟨"u", none, none, some "fruity"⟩ = BuildResult.ok "fruity" :=
  query_text_precedence_amended.1 ⟨"u", none, none, some "fruity"⟩ "fruity" rfl rfl

/-! ## Tenant-visibility filter (`_run_query` in `service.py` lines 219-246) -/

/-- A ChromaDB metadata filter: equality predicate or `$or` of filters. -/
inductive WhereFilter where
  | eqF (field val : String)
  | orF (fs : List WhereFilter)

/-- The `where_filter` dict `_run_query` builds:
`{"$or": [{"access": "public"}, {"user_id": user_id}]}`. -/
def whereFilterOf (user_id : String) : WhereFilter :=
  WhereFilter.orF [WhereFilter.eqF "access" "public", WhereFilter.eqF "user_id" user_id]

mutual
/-- Modelled from the spec: the vector store's metadata-filter semantics
(equality on a scalar metadata field, `$or` as boolean disjunction).  The
store itself (ChromaDB) is an external collaborator outside `src`,
specified only at its boundary. -/
def matchesWhere (f : WhereFilter) (meta : Dict) : Bool :=
  match f with
  | .eqF field val =>
    match dictGet meta field with
    | some (Value.str s) => s == val
    | _ => false
  | .orF fs => matchesAnyWhere fs meta
def matchesAnyWhere (fs : List WhereFilter) (meta : Dict) : Bool :=
  match fs with
  | [] => false
  | f :: rest => matchesWhere f meta || matchesAnyWhere rest meta
end

/-- The trace of one `_run_query` call: the `n_results` and filter of the
store request it issues, and the reranked results. -/
structure QueryTrace where
  nResults : Int
  whereF : WhereFilter
  results : List RankedRef

/-- `_run_query`: compute `n_fetch`, build the `$or` tenant filter, consult
the store (unconditionally - the function has no check on `user_id` and no
error path at all), then rerank.  The trace records the request issued. -/
def svcRunQuery (store : Int → WhereFilter → List RawHit) (user_id : String)
    (k : Int) (useRr : Bool) (w : ℚ) (mult : Int) : QueryTrace :=
  let nFetch := if useRr then k * mult else k
  let wf := whereFilterOf user_id
  let hits := store nFetch wf
  ⟨nFetch, wf, runRerank hits k useRr w⟩

theorem matchesWhere_eqF (field val : String) (meta : Dict) :
    matchesWhere (WhereFilter.eqF field val) meta = true ↔
      dictGet meta field = some (Value.str val) := by
  rw [matchesWhere]
  cases h : dictGet meta field with
  | none => simp
  | some v => cases v <;> simp [beq_iff_eq]

/-- C8 counterexample: with an empty `tenantId` the retrieval does not fail
with `UnauthorizedQuery` - `_run_query` has no such check and no error path:
it issues the store query anyway, with `n_results = k * multiplier` and the
filter `(access = public) OR (user_id = "")`. -/
theorem empty_tenant_queries_counterexample :
    (svcRunQuery (fun _ _ => []) "" 3 true (1/2) 3).whereF =
      WhereFilter.orF [WhereFilter.eqF "access" "public", WhereFilter.eqF "user_id" ""] ∧
    (svcRunQuery (fun _ _ => []) "" 3 true (1/2) 3).nResults = 9 := by
  exact ⟨rfl, rfl⟩

/-- C8 (amended): for every retrieval the metadata filter passed to the
vector store is the boolean OR of "item is marked public" and "item's
owning tenant equals tenantId" - including when tenantId is the empty
string, since no emptiness check or UnauthorizedQuery error exists: the
query proceeds with the empty-tenant filter. -/
theorem tenant_filter_or_semantics :
    (∀ (store : Int → WhereFilter → List RawHit) (user_id : String) (k : Int)
        (useRr : Bool) (w : ℚ) (mult : Int),
        (svcRunQuery store user_id k useRr w mult).whereF = whereFilterOf user_id) ∧
    (∀ (user_id : String) (meta : Dict),
        matchesWhere (whereFilterOf user_id) meta = true ↔
          dictGet meta "access" = some (Value.str "public") ∨
          dictGet meta "user_id" = some (Value.str user_id)) := by
  constructor
  · intro store user_id k useRr w mult
    rfl
  · intro user_id meta
    rw [whereFilterOf]
    rw [show matchesWhere
        (WhereFilter.orF [WhereFilter.eqF "access" "public", WhereFilter.eqF "user_id" user_id])
        meta =
      (matchesWhere (WhereFilter.eqF "access" "public") meta ||
        (matchesWhere (WhereFilter.eqF "user_id" user_id) meta || false)) from rfl]
    rw [Bool.or_false, Bool.or_eq_true]
    rw [matchesWhere_eqF, matchesWhere_eqF]

theorem tenant_filter_or_semantics_witness :
    matchesWhere (whereFilterOf "alice") [("user_id", Value.str "alice")] = true :=
  (tenant_filter_or_semantics.2 "alice" [("user_id", Value.str "alice")]).mpr
    (Or.inr rfl)

/-! ## Ingestion Adapter (`make_record` in `ingest.py` lines 42-52) -/

/-- `p.get(f)` on a pour entry (rendered with `str`, so `None` prints as
`"None"`).  A non-dict entry after the first would raise in Python; such
inputs lie outside the pours shape the pipeline produces. -/
def pourGet (v : Value) (f : String) : Value :=
  match v with
  | .obj fs => (dictGet fs f).getD Value.null
  | _ => Value.null

/-- `pours_to_str`: `"start-end:water_added"` fragments joined with `"; "`
for a nonempty list whose first element is a dict, else `None`. -/
def pours_to_str (pours : Value) : Option String :=
  match pours with
  | Value.list (p :: rest) =>
    match p with
    | Value.obj _ =>
      some (joinSep "; " ((p :: rest).map fun pv =>
        pyStr (pourGet pv "start") ++ "-" ++ pyStr (pourGet pv "end") ++ ":" ++
          pyStr (pourGet pv "water_added")))
    | _ => none
  | _ => none

/-- Python `a or b` on values. -/
def pyOrV (a b : Value) : Value := if pyTruthy a then a else b

/-- `d.get(k)` with the absent case surfaced as `None`. -/
def getOr (d : Dict) (k : String) : Value := (dictGet d k).getD Value.null

/-- Python `s[-n:]`. -/
def pyLastN (n : Nat) (s : String) : String :=
  String.mk (s.data.drop (s.data.length - n))

/-- `make_record` in `ingest.py`, returning `(id, text, meta)`.  Python's
`hash` on `str` is salted per interpreter process (`PYTHONHASHSEED`), so the
string hash is a parameter of the embedding: every interpreter process
instantiates `strHash` with a different function. -/
def make_record (strHash : String → Int) (obj : Dict) : String × String × Dict :=
  let flat0 := flatten obj
  let flat :=
    match dictGet flat0 "brewing.pours" with
    | some (Value.list vs) =>
      dictPut flat0 "brewing.pours_str"
        (match pours_to_str (Value.list vs) with
         | some s => Value.str s
         | none => Value.null)
    | _ => flat0
  let text := beanTextOfFlat flat
  let ridBase := pyStr (pyOrV (getOr flat "id")
    (pyOrV (getOr flat "uuid") (pyOrV (getOr flat "bean.name") (Value.str ""))))
  let rid := (if ridBase.isEmpty then "row" else ridBase) ++ "-" ++
    pyLastN 6 (natStr (strHash text).natAbs)
  (rid, text, flat)

theorem natStr_zero : natStr 0 = "0" := by
  rw [natStr, natDigits]
  rfl

theorem natStr_one : natStr 1 = "1" := by
  rw [natStr, natDigits]
  rfl

/-- A record with an explicit id, as in the ingestion tests. -/
def demoRecord : Dict :=
  [("id", Value.str "test123"), ("bean", Value.obj [("name", Value.str "Test Bean")])]

/-- C9: the derived record id is NOT deterministic across separate
invocations.  `make_record` always appends `str(abs(hash(text)))[-6:]`, and
Python's string hash is salted per process: two interpreter processes
(modelled as two hash functions) ingest the same logical record - same
explicit id seed, same rendered bean text - and obtain different record
ids, so re-ingestion from a new process duplicates instead of overwriting. -/
theorem record_id_depends_on_hash_salt :
    (make_record (fun _ => 0) demoRecord).1 ≠ (make_record (fun _ => 1) demoRecord).1 ∧
    (make_record (fun _ => 0) demoRecord).1 = "test123-0" ∧
    (make_record (fun _ => 1) demoRecord).1 = "test123-1" ∧
    (make_record (fun _ => 0) demoRecord).2.1 = (make_record (fun _ => 1) demoRecord).2.1 := by
  have h0 : (make_record (fun _ => 0) demoRecord).1 =
      "test123" ++ "-" ++ pyLastN 6 (natStr 0) := rfl
  have h1 : (make_record (fun _ => 1) demoRecord).1 =
      "test123" ++ "-" ++ pyLastN 6 (natStr 1) := rfl
  have e0 : (make_record (fun _ => 0) demoRecord).1 = "test123-0" := by
    rw [h0, natStr_zero]
    decide
  have e1 : (make_record (fun _ => 1) demoRecord).1 = "test123-1" := by
    rw [h1, natStr_one]
    decide
  refine ⟨?_, e0, e1, rfl⟩
  rw [e0, e1]
  decide
